import Mathlib

/-!
# Verification of the gas-classifier data-preparation pipeline

A shallow embedding of the data-preparation and model-selection pipeline of
`src/gas_classifier.ipynb` (pandas / scikit-learn), with theorems settling the
frozen claims about it.

Modelling conventions:
* a tabular dataset is a list of rows; for the balancing / splitting stages a
  row is a pair `(label, payload) : Nat × Nat`;
* for the column-wise stages (imputation, standardization, correlation-based
  feature selection) a dataset is a list of named columns over `ℚ`
  (`Option ℚ` entries where values may be missing);
* floating-point arithmetic is embedded as exact rational arithmetic; a float
  division whose divisor is zero (the NaN/Inf case) is embedded as
  `safeDiv : ℚ → ℚ → Option ℚ` returning `none`;
* the library pseudo-random generator (`numpy.random.RandomState(42)`) is
  embedded as an explicit deterministic linear congruential generator; what
  matters for every claim is only that it is a deterministic function of the
  seed and that shuffling is a permutation.
-/

namespace GasClassifier

/-- A row of the balanced table: a class label together with an opaque
payload standing for the sensor readings of that row. -/
abbrev Row : Type := Nat × Nat

/-! ## Pseudo-random generator and shuffling

`sklearn.utils.resample(..., random_state=42)` and
`DataFrame.sample(frac=1, random_state=42)` draw from a seeded PRNG.  The
generator is embedded as a linear congruential generator; `shuffle` is a
Fisher–Yates style permutation driven by it. -/

/-- One step of the linear congruential generator standing for the seeded
`RandomState` stream. -/
def lcg (s : Nat) : Nat := (1103515245 * s + 12345) % 2147483648

/-- The `k`-th draw of the generator started from seed `s`. -/
def lcgAt (s : Nat) : Nat → Nat
  | 0 => lcg s
  | k + 1 => lcg (lcgAt s k)

/-- Fisher–Yates shuffle with explicit fuel (the fuel is always the length
of the list, see `shuffle`). -/
def shuffleAux {α : Type} : Nat → Nat → List α → List α
  | 0, _, l => l
  | _ + 1, _, [] => []
  | n + 1, s, x :: xs =>
      let l := x :: xs
      let i := s % l.length
      l.getD i x :: shuffleAux n (lcg s) (l.eraseIdx i)

/-- Seeded deterministic shuffle, standing for
`DataFrame.sample(frac=1, random_state=seed)`. -/
def shuffle {α : Type} (s : Nat) (l : List α) : List α :=
  shuffleAux l.length s l

/-! ## Labels, counts, and the class distribution -/

/-- Distinct values in order of first appearance, skipping the ones already
seen in the accumulator. -/
def dedupAux (seen : List Nat) : List Nat → List Nat
  | [] => []
  | x :: xs => if x ∈ seen then dedupAux seen xs
               else x :: dedupAux (x :: seen) xs

/-- The distinct values of a list in order of first appearance
(`Series.unique` / the index of `value_counts`). -/
def dedupFirst (l : List Nat) : List Nat := dedupAux [] l

/-- The labels occurring in a dataset, in order of first appearance. -/
def labs (d : List Row) : List Nat := dedupFirst (d.map Prod.fst)

/-- Number of rows of `d` carrying label `ℓ` (one entry of the
`value_counts` class distribution). -/
def cnt (d : List Row) (ℓ : Nat) : Nat :=
  (d.filter (fun r => r.1 == ℓ)).length

/-! ## Imputer

`data_cleaned = data.fillna(data.mean(numeric_only=True))`: every missing
entry of a numeric column is replaced by that column's mean over its
non-missing values; non-numeric columns are not touched
(`numeric_only=True`).  A column with no non-missing value has an undefined
mean (`NaN` in pandas) and `fillna` leaves it unchanged. -/

/-- A raw table: named numeric columns (entries possibly missing) and named
non-numeric columns (entries possibly missing). -/
structure RawData where
  num : List (String × List (Option ℚ))
  cat : List (String × List (Option String))

/-- The mean of a numeric column over its non-missing values
(`Series.mean()`); `none` when every entry is missing. -/
def meanOfCol (c : List (Option ℚ)) : Option ℚ :=
  let p := c.filterMap id
  if p.length = 0 then none else some (p.sum / p.length)

/-- Fill the missing entries of one numeric column with the column mean
(`fillna` with that column's `mean()`); an all-missing column is left as is
(its pandas mean is `NaN`, which `fillna` does not fill). -/
def fillColumn (c : List (Option ℚ)) : List (Option ℚ) :=
  match meanOfCol c with
  | none => c
  | some m => c.map (fun x => some (x.getD m))

/-- The call `data.fillna(data.mean(numeric_only=True))`: fill every numeric column,
leave the non-numeric columns untouched, return a new table. -/
def impute (d : RawData) : RawData :=
  ⟨d.num.map (fun nc => (nc.1, fillColumn nc.2)), d.cat⟩

/-! ## Standardizer

`scaler = StandardScaler(); X_train_scaled = scaler.fit_transform(X_train);
X_test_scaled = scaler.transform(X_test)`.  Per feature the scaler stores the
training mean and the training population variance; the transform divides the
centred value by `scale = sqrt(var)`, where scikit-learn's
`_handle_zeros_in_scale` replaces a zero scale by `1`.  Because `sqrt(var)`
is irrational in general, the embedding passes the scale `s` explicitly and
theorems characterise it by `s * s = popVar train`. -/

/-- Exact division embedding a float division: `none` stands for the
NaN/Inf produced by a zero divisor. -/
def safeDiv (a b : ℚ) : Option ℚ := if b = 0 then none else some (a / b)

/-- Mean of a column (`0` for the empty column, which never occurs). -/
def colMean (c : List ℚ) : ℚ := c.sum / c.length

/-- Sum of products of centred entries of two columns: the unnormalised
covariance (the `1/(n-1)` factors cancel in every correlation). -/
def cov (x y : List ℚ) : ℚ :=
  ((x.zip y).map (fun p => (p.1 - colMean x) * (p.2 - colMean y))).sum

/-- Unnormalised variance of a column: its sum of squared deviations. -/
def sqDevSum (c : List ℚ) : ℚ := cov c c

/-- Population variance of a column (`StandardScaler` uses `ddof = 0`). -/
def popVar (c : List ℚ) : ℚ := sqDevSum c / c.length

/-- Transform one column with the stored mean `m` and scale `s`:
`(x - m) / s`, a zero scale being replaced by `1`
(scikit-learn `_handle_zeros_in_scale`). -/
def transformCol (m s : ℚ) (c : List ℚ) : List (Option ℚ) :=
  c.map (fun x => safeDiv (x - m) (if s = 0 then 1 else s))

/-- The standardization step for one feature: fit mean and scale on the
training column only, apply the identical parameters to both the training
and the test column. -/
def standardize (train test : List ℚ) (s : ℚ) :
    List (Option ℚ) × List (Option ℚ) :=
  (transformCol (colMean train) s train, transformCol (colMean train) s test)

/-- Extract an all-defined column; `none` as soon as one entry is NaN. -/
def seqCol : List (Option ℚ) → Option (List ℚ)
  | [] => some []
  | none :: _ => none
  | some x :: rest => (seqCol rest).map (fun u => x :: u)

/-! ## Correlation-based feature selection

```
correlation_matrix = pd.DataFrame(X_train_scaled, columns=X.columns).corr()
relevant_features = correlation_matrix.columns[correlation_matrix.abs().max() > 0.5]
X_train_relevant = pd.DataFrame(X_train_scaled, columns=X.columns)[relevant_features]
X_test_relevant  = pd.DataFrame(X_test_scaled, columns=X.columns)[relevant_features]
```

A named numeric table is a `List (String × List ℚ)` of columns.  The Pearson
correlation of columns `x`, `y` is `cov x y / sqrt (sqDevSum x * sqDevSum y)`
and is NaN when either column has zero variance.  To stay inside `ℚ` the
embedding carries the *square* of the absolute correlation; since
`|c| > 0.5 ↔ c² > 0.25` (both sides of the matrix comparison are
nonnegative), thresholding the square at `1/4` is the exact comparison the
source performs at `0.5`.  `optMax` is the column-wise `max()` of pandas,
which skips NaN entries and returns NaN on an all-NaN column, and
`NaN > 0.5` is false. -/

/-- Square of the absolute Pearson correlation of two columns; `none` is the
NaN produced when either column is constant. -/
def corrAbsSq (x y : List ℚ) : Option ℚ :=
  if sqDevSum x = 0 ∨ sqDevSum y = 0 then none
  else some (cov x y ^ 2 / (sqDevSum x * sqDevSum y))

/-- pandas column-wise `max()`: NaN entries are skipped, an all-NaN column
yields NaN (`none`). -/
def optMax : List (Option ℚ) → Option ℚ
  | [] => none
  | none :: rest => optMax rest
  | some v :: rest =>
      match optMax rest with
      | none => some v
      | some w => some (max v w)

/-- Does column `y` pass the filter `correlation_matrix.abs().max() > 0.5`
(with the comparison carried on squares against `1/4`)? -/
def colPasses (cols : List (String × List ℚ)) (y : List ℚ) : Bool :=
  match optMax (cols.map (fun x => corrAbsSq x.2 y)) with
  | none => false
  | some v => decide ((1 : ℚ)/4 < v)

/-- The selection `relevant_features`: the names of the columns whose maximal absolute
correlation entry exceeds `0.5`, in original column order. -/
def relevant_features (cols : List (String × List ℚ)) : List String :=
  (cols.filter (fun c => colPasses cols c.2)).map Prod.fst

/-- Column projection `df[names]`: pick the named columns, in the order the
names are listed. -/
def projectCols (cols : List (String × List ℚ)) (names : List String) :
    List (String × List ℚ) :=
  names.filterMap (fun n => cols.find? (fun c => c.1 == n))

/-- The whole feature-selection step of the source: compute the selection
from the standardized training table only, then project both the training
and the test table onto it. -/
def featureSelectStep (train test : List (String × List ℚ)) :
    List (String × List ℚ) × List (String × List ℚ) :=
  let sel := relevant_features train
  (projectCols train sel, projectCols test sel)

/-! ## Grid search

`GridSearchCV(SVC(...), param_grid, cv=5)`: every grid combination is scored
by its mean cross-validation score; the best index is the *first* index
attaining the maximal mean score.  The per-combination fold scores are a
black box (`folds p = none` models a combination whose fit fails and is
skipped). -/

/-- Mean of a list of fold scores. -/
def meanScore (l : List ℚ) : ℚ := l.sum / l.length

/-- Mean cross-validation score of one grid combination; `none` when the
combination could not be evaluated. -/
def cvMean {P : Type} (folds : P → Option (List ℚ)) (p : P) : Option ℚ :=
  (folds p).map meanScore

/-- The `GridSearchCV` selection: return the first combination attaining the
maximal mean cross-validation score, together with that score; `none` when
no combination evaluates. -/
def gridSearch {P : Type} (grid : List P) (folds : P → Option (List ℚ)) :
    Option (P × ℚ) :=
  match grid with
  | [] => none
  | p :: ps =>
      match cvMean folds p, gridSearch ps folds with
      | none, r => r
      | some v, none => some (p, v)
      | some v, some (q, w) => if v < w then some (q, w) else some (p, v)

/-! ## Balancer

```
majority_class = class_distribution.idxmax()
minority_classes = class_distribution[class_distribution != class_distribution.max()].index
resampled_data = [data_cleaned[data_cleaned[class_column] == majority_class]]
for minority_class in minority_classes:
    resampled_data.append(resample(minority, replace=True,
                                   n_samples=class_distribution[majority_class],
                                   random_state=42))
balanced_data = pd.concat(resampled_data)
balanced_data = balanced_data.sample(frac=1, random_state=42).reset_index(drop=True)
```
-/

/-- The maximal per-label count (`class_distribution.max()`). -/
def maxCount (d : List Row) : Nat :=
  ((labs d).map (cnt d)).foldr max 0

/-- The majority label `class_distribution.idxmax()`: the first label (in order of appearance)
attaining the maximal count. -/
def majorityOf (d : List Row) : Nat :=
  (((labs d).find? (fun ℓ => cnt d ℓ == maxCount d))).getD 0

/-- The labels whose count differs from the maximum
(`class_distribution != class_distribution.max()`). -/
def minorityClasses (d : List Row) : List Nat :=
  (labs d).filter (fun ℓ => !(cnt d ℓ == maxCount d))

/-- Resampling `sklearn.utils.resample(l, replace=True, n_samples=n, random_state=s)`:
`n` seed-determined draws with replacement from `l` (empty when `l` is). -/
def resampleList (s : Nat) (l : List Row) (n : Nat) : List Row :=
  if l.isEmpty then []
  else (List.range n).map (fun k => l.getD (lcgAt s k % l.length) (0, 0))

/-- The balancing stage: majority rows unchanged, every label of
non-maximal count oversampled with replacement up to the maximal count,
concatenated and shuffled with the fixed seed. -/
def balanceData (s : Nat) (d : List Row) : List Row :=
  let mc := maxCount d
  let maj := majorityOf d
  shuffle s ((d.filter (fun r => r.1 == maj)) ++
    (minorityClasses d).flatMap
      (fun ℓ => resampleList s (d.filter (fun r => r.1 == ℓ)) mc))

/-! ## Stratified splitter

Modelled from the spec: `train_test_split(X, y, test_size=0.2,
random_state=42, stratify=y)` is a scikit-learn call whose code is not part
of this repository.  Following the spec's contract (§4.3) and scikit-learn's
documented behaviour, the embedding shuffles with the seed, computes
`nTest = ⌈f·N⌉` test rows, allocates to each label its proportional share
`⌊f·n_ℓ⌋` of test rows, distributes the remaining test rows one per label
from the front of the label list, and takes that many rows of each label
group for the test side, the rest for the train side.  `splitChecked` is the
spec's `InsufficientDataError` interface: stratification requires every
label to have at least two rows (one for each side). -/

/-- Number of test rows, `⌈f · N⌉`. -/
def nTest (f : ℚ) (d : List Row) : Nat := (⌈f * (d.length : ℚ)⌉).toNat

/-- Proportional base share of test rows for a label of count `n`. -/
def baseShare (f : ℚ) (n : Nat) : Nat := (⌊f * (n : ℚ)⌋).toNat

/-- Sum of the base shares over all labels. -/
def baseSum (f : ℚ) (d : List Row) : Nat :=
  ((labs d).map (fun ℓ => baseShare f (cnt d ℓ))).sum

/-- Allocate per-label test counts: each label gets its base share, and the
first `r` labels get one extra test row. -/
def alloc (f : ℚ) (d : List Row) : List Nat → Nat → List (Nat × Nat)
  | [], _ => []
  | ℓ :: ls, r =>
      if r = 0 then (ℓ, baseShare f (cnt d ℓ)) :: alloc f d ls 0
      else (ℓ, baseShare f (cnt d ℓ) + 1) :: alloc f d ls (r - 1)

/-- The per-label test allocation of a dataset. -/
def testAlloc (f : ℚ) (d : List Row) : List (Nat × Nat) :=
  alloc f d (labs d) (nTest f d - baseSum f d)

/-- The test side: the first `t` rows of each label group. -/
def takeParts (d : List Row) (tc : List (Nat × Nat)) : List Row :=
  tc.flatMap (fun p => (d.filter (fun r => r.1 == p.1)).take p.2)

/-- The train side: the remaining rows of each label group. -/
def dropParts (d : List Row) (tc : List (Nat × Nat)) : List Row :=
  tc.flatMap (fun p => (d.filter (fun r => r.1 == p.1)).drop p.2)

/-- The stratified split: `(train, test)`. -/
def splitStrat (s : Nat) (f : ℚ) (d : List Row) : List Row × List Row :=
  let e := shuffle s d
  let tc := testAlloc f e
  (dropParts e tc, takeParts e tc)

/-- The split with its error interface: fails with `InsufficientDataError`
when some label has too few rows to put one on each side. -/
def splitChecked (s : Nat) (f : ℚ) (d : List Row) :
    Except String (List Row × List Row) :=
  if (labs d).all (fun ℓ => 2 ≤ cnt d ℓ) then Except.ok (splitStrat s f d)
  else Except.error "InsufficientDataError"

/-! ## The pipeline's fixed seeds

The source passes `random_state=42` to every resample, to the balancing
shuffle, and to `train_test_split`, and uses `test_size=0.2`. -/

/-- The balancing stage exactly as the source runs it (seed fixed at 42). -/
def pipelineBalanced (d : List Row) : List Row := balanceData 42 d

/-- The splitting stage exactly as the source runs it (seed 42, test
fraction 0.2), applied to the balanced data. -/
def pipelineSplit (d : List Row) : List Row × List Row :=
  splitStrat 42 (1/5) (pipelineBalanced d)

/-! ## Helper lemmas: shuffling is a permutation -/

theorem perm_getD_cons_eraseIdx {α : Type} :
    ∀ (l : List α) (i : Nat), i < l.length → ∀ d : α,
      l.Perm (l.getD i d :: l.eraseIdx i)
  | [], i, h, _ => absurd h (by simp)
  | x :: xs, 0, _, d => by simp [List.getD]
  | x :: xs, i + 1, h, d => by
      have hi : i < xs.length := by simpa using h
      have ih := perm_getD_cons_eraseIdx xs i hi d
      have h1 : (x :: xs).Perm (x :: (xs.getD i d :: xs.eraseIdx i)) :=
        List.Perm.cons x ih
      refine h1.trans ?_
      simpa [List.getD] using
        List.Perm.swap (xs.getD i d) x (xs.eraseIdx i)

theorem shuffleAux_perm {α : Type} :
    ∀ (n : Nat) (s : Nat) (l : List α), l.length ≤ n →
      (shuffleAux n s l).Perm l
  | 0, _, l, _ => List.Perm.refl l
  | _ + 1, _, [], _ => List.Perm.refl []
  | n + 1, s, x :: xs, h => by
      set l := x :: xs with hl
      have hpos : 0 < l.length := by simp [hl]
      have hi : s % l.length < l.length := Nat.mod_lt _ hpos
      have hlen : (l.eraseIdx (s % l.length)).length ≤ n := by
        rw [List.length_eraseIdx_of_lt hi]
        have := Nat.succ_le_succ_iff.mp (by simpa [hl] using h)
        omega
      have ih := shuffleAux_perm n (lcg s) (l.eraseIdx (s % l.length)) hlen
      have hstep := perm_getD_cons_eraseIdx l (s % l.length) hi x
      have heq : shuffleAux (n + 1) s l
          = l.getD (s % l.length) x ::
              shuffleAux n (lcg s) (l.eraseIdx (s % l.length)) := by
        rw [hl]; rfl
      rw [heq]
      exact (List.Perm.cons _ ih).trans hstep.symm

/-- Shuffling is a permutation of its input. -/
theorem shuffle_perm {α : Type} (s : Nat) (l : List α) :
    (shuffle s l).Perm l :=
  shuffleAux_perm l.length s l (Nat.le_refl _)

/-! ## Helper lemmas: labels and counts -/

theorem mem_dedupAux : ∀ (l : List Nat) (seen : List Nat) (a : Nat),
    a ∈ dedupAux seen l ↔ a ∈ l ∧ a ∉ seen
  | [], seen, a => by simp [dedupAux]
  | x :: xs, seen, a => by
      rw [dedupAux]
      by_cases hx : x ∈ seen
      · rw [if_pos hx, mem_dedupAux xs seen a]
        constructor
        · exact fun ⟨h1, h2⟩ => ⟨List.mem_cons_of_mem x h1, h2⟩
        · rintro ⟨h1, h2⟩
          rcases List.mem_cons.mp h1 with rfl | h1'
          · exact absurd hx h2
          · exact ⟨h1', h2⟩
      · rw [if_neg hx]
        simp only [List.mem_cons, mem_dedupAux xs (x :: seen) a]
        constructor
        · rintro (rfl | ⟨h1, h2⟩)
          · exact ⟨Or.inl rfl, hx⟩
          · exact ⟨Or.inr h1, fun hs => h2 (Or.inr hs)⟩
        · rintro ⟨rfl | h1, h2⟩
          · exact Or.inl rfl
          · by_cases hax : a = x
            · exact Or.inl hax
            · refine Or.inr ⟨h1, ?_⟩
              rintro (h | h)
              · exact hax h
              · exact h2 h

theorem mem_dedupFirst (l : List Nat) (a : Nat) :
    a ∈ dedupFirst l ↔ a ∈ l := by
  rw [dedupFirst, mem_dedupAux]
  simp

theorem nodup_dedupAux : ∀ (l : List Nat) (seen : List Nat),
    (dedupAux seen l).Nodup
  | [], seen => by simp [dedupAux]
  | x :: xs, seen => by
      rw [dedupAux]
      by_cases hx : x ∈ seen
      · rw [if_pos hx]
        exact nodup_dedupAux xs seen
      · rw [if_neg hx]
        refine List.nodup_cons.mpr ⟨?_, nodup_dedupAux xs (x :: seen)⟩
        intro hmem
        exact ((mem_dedupAux xs (x :: seen) x).mp hmem).2 (List.mem_cons_self x seen)

theorem nodup_dedupFirst (l : List Nat) : (dedupFirst l).Nodup :=
  nodup_dedupAux l []

theorem mem_labs (d : List Row) (ℓ : Nat) :
    ℓ ∈ labs d ↔ ∃ r ∈ d, r.1 = ℓ := by
  rw [labs, mem_dedupFirst]
  simp [List.mem_map, eq_comm]

theorem nodup_labs (d : List Row) : (labs d).Nodup :=
  nodup_dedupFirst _

theorem cnt_pos_of_mem_labs (d : List Row) (ℓ : Nat) (h : ℓ ∈ labs d) :
    0 < cnt d ℓ := by
  obtain ⟨r, hr, hrl⟩ := (mem_labs d ℓ).mp h
  have : r ∈ d.filter (fun r => r.1 == ℓ) :=
    List.mem_filter.mpr ⟨hr, by simp [hrl]⟩
  have := List.length_pos.mpr (List.ne_nil_of_mem this)
  simpa [cnt] using this

theorem cnt_perm {d d' : List Row} (h : d.Perm d') (ℓ : Nat) :
    cnt d ℓ = cnt d' ℓ := by
  unfold cnt
  exact (h.filter _).length_eq

/-! ## Helper lemmas: imputer -/

theorem meanOfCol_isSome_of_exists {c : List (Option ℚ)}
    (h : ∃ x ∈ c, x.isSome) : ∃ m, meanOfCol c = some m := by
  obtain ⟨x, hx, hs⟩ := h
  obtain ⟨v, rfl⟩ := Option.isSome_iff_exists.mp hs
  have hv : v ∈ c.filterMap id := by
    exact List.mem_filterMap.mpr ⟨some v, hx, rfl⟩
  have hne : (c.filterMap id).length ≠ 0 := by
    intro hlen
    exact absurd (List.length_eq_zero.mp hlen ▸ hv) (List.not_mem_nil v)
  refine ⟨(c.filterMap id).sum / (c.filterMap id).length, ?_⟩
  simp [meanOfCol, hne]

theorem fillColumn_of_mean_some {c : List (Option ℚ)} {m : ℚ}
    (h : meanOfCol c = some m) :
    fillColumn c = c.map (fun x => some (x.getD m)) := by
  simp [fillColumn, h]

theorem fillColumn_clean {c : List (Option ℚ)}
    (h : ∀ x ∈ c, x.isSome) : fillColumn c = c := by
  rcases hm : meanOfCol c with _ | m
  · simp [fillColumn, hm]
  · rw [fillColumn_of_mean_some hm]
    have : ∀ x ∈ c, some (x.getD m) = x := by
      intro x hx
      obtain ⟨v, rfl⟩ := Option.isSome_iff_exists.mp (h x hx)
      rfl
    calc c.map (fun x => some (x.getD m)) = c.map id := List.map_congr_left this
      _ = c := List.map_id c

/-- C8: for a dataset whose numeric columns each have a non-missing value,
imputation (i) fills every missing numeric entry with that column's mean
over its non-missing values, leaving present entries unchanged, (ii) leaves
non-numeric columns untouched, (iii) leaves clean columns unchanged with
their mean preserved, and (iv) afterwards no numeric column has a missing
entry. -/
theorem C8_impute_fills_with_mean (d : RawData)
    (h : ∀ nc ∈ d.num, ∃ x ∈ nc.2, x.isSome) :
    (∀ nc ∈ (impute d).num, ∀ x ∈ nc.2, x.isSome)
  ∧ (impute d).cat = d.cat
  ∧ (∀ nc ∈ d.num, (∀ x ∈ nc.2, x.isSome) →
      fillColumn nc.2 = nc.2 ∧ meanOfCol (fillColumn nc.2) = meanOfCol nc.2)
  ∧ (∀ nc ∈ d.num,
      fillColumn nc.2 = nc.2.map (fun x => some (x.getD ((meanOfCol nc.2).getD 0)))) := by
  refine ⟨?_, rfl, ?_, ?_⟩
  · intro nc hnc x hx
    simp only [impute, List.mem_map] at hnc
    obtain ⟨nc₀, hnc₀, rfl⟩ := hnc
    obtain ⟨m, hm⟩ := meanOfCol_isSome_of_exists (h nc₀ hnc₀)
    rw [fillColumn_of_mean_some hm] at hx
    obtain ⟨y, _, rfl⟩ := List.mem_map.mp hx
    rfl
  · intro nc _ hclean
    have := fillColumn_clean hclean
    exact ⟨this, by rw [this]⟩
  · intro nc hnc
    obtain ⟨m, hm⟩ := meanOfCol_isSome_of_exists (h nc hnc)
    rw [fillColumn_of_mean_some hm, hm]
    rfl

/-- Witness for C8 at a concrete table with one missing numeric entry and a
non-numeric column. -/
theorem C8_impute_fills_with_mean_witness :
    (∀ nc ∈ (RawData.mk [("a", [some 1, none, some 3])]
        [("g", [some "x", none])]).num, ∃ x ∈ nc.2, x.isSome)
  ∧ ((∀ nc ∈ (impute (RawData.mk [("a", [some 1, none, some 3])]
        [("g", [some "x", none])])).num, ∀ x ∈ nc.2, x.isSome)
  ∧ (impute (RawData.mk [("a", [some 1, none, some 3])]
        [("g", [some "x", none])])).cat =
      (RawData.mk [("a", [some 1, none, some 3])] [("g", [some "x", none])]).cat
  ∧ (∀ nc ∈ (RawData.mk [("a", [some 1, none, some 3])]
        [("g", [some "x", none])]).num, (∀ x ∈ nc.2, x.isSome) →
      fillColumn nc.2 = nc.2 ∧ meanOfCol (fillColumn nc.2) = meanOfCol nc.2)
  ∧ (∀ nc ∈ (RawData.mk [("a", [some 1, none, some 3])]
        [("g", [some "x", none])]).num,
      fillColumn nc.2 = nc.2.map (fun x => some (x.getD ((meanOfCol nc.2).getD 0))))) :=
  ⟨by decide, C8_impute_fills_with_mean _ (by decide)⟩

/-! ## Helper lemmas: feature selection -/

theorem zip_self_map {α : Type} (l : List α) :
    l.zip l = l.map (fun a => (a, a)) := by
  induction l with
  | nil => rfl
  | cons x xs ih => simp [List.zip_cons_cons, ih, List.zip_map_left]

theorem sqDevSum_eq_sum_sq (c : List ℚ) :
    sqDevSum c = (c.map (fun x => (x - colMean c) ^ 2)).sum := by
  unfold sqDevSum cov
  rw [zip_self_map, List.map_map]
  congr 1
  apply List.map_congr_left
  intro x _
  simp [sq]

theorem corrAbsSq_self {y : List ℚ} (h : sqDevSum y ≠ 0) :
    corrAbsSq y y = some 1 := by
  unfold corrAbsSq
  rw [if_neg (by tauto)]
  have : cov y y = sqDevSum y := rfl
  rw [this, sq]
  congr 1
  field_simp

theorem optMax_none_of_all_none {l : List (Option ℚ)}
    (h : ∀ x ∈ l, x = none) : optMax l = none := by
  induction l with
  | nil => rfl
  | cons x xs ih =>
      have hx : x = none := h x (by simp)
      subst hx
      exact ih (fun y hy => h y (by simp [hy]))

theorem optMax_ge_of_mem {l : List (Option ℚ)} {a : ℚ}
    (h : some a ∈ l) : ∃ v, optMax l = some v ∧ a ≤ v := by
  induction l with
  | nil => simp at h
  | cons x xs ih =>
      rcases List.mem_cons.mp h with hx | hxs
      · subst hx
        show ∃ v, (match optMax xs with
          | none => some a
          | some w => some (max a w)) = some v ∧ a ≤ v
        rcases hmx : optMax xs with _ | w
        · exact ⟨a, rfl, le_refl a⟩
        · exact ⟨max a w, rfl, le_max_left a w⟩
      · obtain ⟨v, hv, hav⟩ := ih hxs
        rcases x with _ | u
        · exact ⟨v, by simpa [optMax] using hv, hav⟩
        · refine ⟨max u v, ?_, le_trans hav (le_max_right u v)⟩
          show (match optMax xs with
            | none => some u
            | some w => some (max u w)) = some (max u v)
          rw [hv]

theorem popVar_ne_zero_iff (c : List ℚ) :
    popVar c ≠ 0 ↔ sqDevSum c ≠ 0 := by
  unfold popVar
  constructor
  · intro h hS
    exact h (by rw [hS]; simp)
  · intro hS
    have hne : c ≠ [] := by
      intro hc
      exact hS (by simp [hc, sqDevSum, cov])
    have hpos : 0 < c.length := List.length_pos.mpr hne
    have hlen : ((c.length : ℚ)) ≠ 0 := by
      exact_mod_cast Nat.pos_iff_ne_zero.mp hpos
    exact div_ne_zero hS hlen

theorem colPasses_iff (cols : List (String × List ℚ))
    (c : String × List ℚ) (hc : c ∈ cols) :
    colPasses cols c.2 = decide (popVar c.2 ≠ 0) := by
  by_cases hS : sqDevSum c.2 = 0
  · have hall : ∀ x ∈ cols.map (fun x => corrAbsSq x.2 c.2), x = none := by
      intro x hx
      obtain ⟨a, _, rfl⟩ := List.mem_map.mp hx
      simp [corrAbsSq, hS]
    have hvar : ¬ popVar c.2 ≠ 0 := by
      simpa using (not_iff_not.mpr (popVar_ne_zero_iff c.2)).mpr (by simpa using hS)
    simp [colPasses, optMax_none_of_all_none hall, hvar]
  · have hmem : some 1 ∈ cols.map (fun x => corrAbsSq x.2 c.2) := by
      refine List.mem_map.mpr ⟨c, hc, ?_⟩
      exact corrAbsSq_self hS
    obtain ⟨v, hv, h1v⟩ := optMax_ge_of_mem hmem
    have hvgt : (1 : ℚ)/4 < v := lt_of_lt_of_le (by norm_num) h1v
    have hvgt' : (4 : ℚ)⁻¹ < v := by rw [show (4:ℚ)⁻¹ = 1/4 by norm_num]; exact hvgt
    have hvar : popVar c.2 ≠ 0 := (popVar_ne_zero_iff c.2).mpr hS
    simp [colPasses, hv, hvgt', hvar]

/-- C2: because the correlation matrix carries each feature's
self-correlation `1`, the filter `correlation_matrix.abs().max() > 0.5`
keeps exactly the columns of nonzero training variance (constant columns
produce an all-NaN matrix column, and pandas `max()` of it is NaN, which
fails the comparison); on a table of non-constant columns the selection is
the identity. -/
theorem C2_selection_is_variance_filter (cols : List (String × List ℚ)) :
    relevant_features cols =
      (cols.filter (fun c => decide (popVar c.2 ≠ 0))).map Prod.fst := by
  unfold relevant_features
  congr 1
  exact List.filter_congr (fun c hc => colPasses_iff cols c hc)

/-- C7: the selected features are a sublist of the input column names (hence
a subset, in original column order); the step projects both train and test
onto the selection computed from the training table alone; the training-side
result does not depend on the test table; and the selection is a pure
function, stable under re-running on identical input. -/
theorem C7_selection_order_and_purity (train test : List (String × List ℚ)) :
    (relevant_features train).Sublist (train.map Prod.fst)
  ∧ featureSelectStep train test =
      (projectCols train (relevant_features train),
       projectCols test (relevant_features train))
  ∧ (∀ test', (featureSelectStep train test').1 = (featureSelectStep train test).1)
  ∧ (∀ train', train' = train → relevant_features train' = relevant_features train) := by
  refine ⟨?_, rfl, fun _ => rfl, fun _ h => by rw [h]⟩
  unfold relevant_features
  exact List.Sublist.map Prod.fst (List.filter_sublist train)

/-! ## Helper lemmas: grid search -/

/-- Total characterisation of `gridSearch`: either nothing evaluated and the
search is empty-handed, or it returns the first combination attaining the
maximal mean cross-validation score. -/
theorem gridSearch_cases {P : Type} (grid : List P)
    (folds : P → Option (List ℚ)) :
    (gridSearch grid folds = none ∧ ∀ q ∈ grid, cvMean folds q = none)
  ∨ (∃ p v l₁ l₂,
      gridSearch grid folds = some (p, v)
    ∧ cvMean folds p = some v
    ∧ grid = l₁ ++ p :: l₂
    ∧ (∀ q ∈ grid, ∀ w, cvMean folds q = some w → w ≤ v)
    ∧ (∀ q ∈ l₁, ∀ w, cvMean folds q = some w → w < v)) := by
  induction grid with
  | nil => exact Or.inl ⟨rfl, by simp⟩
  | cons p₀ ps ih =>
      have hstep : gridSearch (p₀ :: ps) folds =
          match cvMean folds p₀, gridSearch ps folds with
          | none, r => r
          | some v, none => some (p₀, v)
          | some v, some (q, w) => if v < w then some (q, w) else some (p₀, v) := rfl
      rcases hm : cvMean folds p₀ with _ | v₀
      · rcases ih with ⟨hnone, hall⟩ | ⟨p, v, l₁, l₂, hgs, hcv, hdec, hmax, hfirst⟩
        · refine Or.inl ⟨?_, ?_⟩
          · rw [hstep, hm, hnone]
          · intro q hq
            rcases List.mem_cons.mp hq with rfl | hq'
            · exact hm
            · exact hall q hq'
        · refine Or.inr ⟨p, v, p₀ :: l₁, l₂, ?_, hcv, by rw [hdec]; rfl, ?_, ?_⟩
          · rw [hstep, hm, hgs]
          · intro q hq w hw
            rcases List.mem_cons.mp hq with rfl | hq'
            · rw [hm] at hw; cases hw
            · exact hmax q hq' w hw
          · intro q hq w hw
            rcases List.mem_cons.mp hq with rfl | hq'
            · rw [hm] at hw; cases hw
            · exact hfirst q hq' w hw
      · rcases ih with ⟨hnone, hall⟩ | ⟨p, v, l₁, l₂, hgs, hcv, hdec, hmax, hfirst⟩
        · refine Or.inr ⟨p₀, v₀, [], ps, ?_, hm, rfl, ?_, by simp⟩
          · rw [hstep, hm, hnone]
          · intro q hq w hw
            rcases List.mem_cons.mp hq with rfl | hq'
            · rw [hm] at hw; exact le_of_eq (Option.some.inj hw).symm
            · rw [hall q hq'] at hw; cases hw
        · by_cases hlt : v₀ < v
          · refine Or.inr ⟨p, v, p₀ :: l₁, l₂, ?_, hcv, by rw [hdec]; rfl, ?_, ?_⟩
            · rw [hstep, hm, hgs]; simp [hlt]
            · intro q hq w hw
              rcases List.mem_cons.mp hq with rfl | hq'
              · rw [hm] at hw
                exact le_of_lt ((Option.some.inj hw) ▸ hlt)
              · exact hmax q hq' w hw
            · intro q hq w hw
              rcases List.mem_cons.mp hq with rfl | hq'
              · rw [hm] at hw
                exact (Option.some.inj hw) ▸ hlt
              · exact hfirst q hq' w hw
          · refine Or.inr ⟨p₀, v₀, [], ps, ?_, hm, rfl, ?_, by simp⟩
            · rw [hstep, hm, hgs]; simp [hlt]
            · intro q hq w hw
              rcases List.mem_cons.mp hq with rfl | hq'
              · rw [hm] at hw; exact le_of_eq (Option.some.inj hw).symm
              · have hv : v ≤ v₀ := le_of_not_lt hlt
                exact le_trans (hmax q hq' w hw) hv

/-- C3: whenever at least one grid combination evaluates successfully, the
grid search returns a member of the supplied grid together with its mean
cross-validation score, that score is maximal among all successfully
evaluated combinations, and every earlier-encountered combination scores
strictly lower (ties go to the first-encountered combination). -/
theorem C3_gridSearch_max_first {P : Type} (grid : List P)
    (folds : P → Option (List ℚ))
    (h : ∃ p ∈ grid, (cvMean folds p).isSome) :
    ∃ p v l₁ l₂,
      gridSearch grid folds = some (p, v)
    ∧ p ∈ grid
    ∧ cvMean folds p = some v
    ∧ grid = l₁ ++ p :: l₂
    ∧ (∀ q ∈ grid, ∀ w, cvMean folds q = some w → w ≤ v)
    ∧ (∀ q ∈ l₁, ∀ w, cvMean folds q = some w → w < v) := by
  rcases gridSearch_cases grid folds with ⟨_, hall⟩ | ⟨p, v, l₁, l₂, h1, h2, h3, h4, h5⟩
  · obtain ⟨p, hp, hs⟩ := h
    rw [hall p hp] at hs
    cases hs
  · exact ⟨p, v, l₁, l₂, h1, by rw [h3]; simp, h2, h3, h4, h5⟩

/-- Witness for C3 on the linear-kernel grid `C ∈ {0.1, 1, 10, 100}` with a
concrete fold-score table. -/
theorem C3_gridSearch_max_first_witness :
    (∃ p ∈ [(1:ℚ)/10, 1, 10, 100],
        (cvMean (fun c => some [if c = 10 then (9:ℚ)/10 else 4/5,
          if c = 10 then (9:ℚ)/10 else 4/5]) p).isSome)
  ∧ ∃ p v l₁ l₂,
      gridSearch [(1:ℚ)/10, 1, 10, 100]
        (fun c => some [if c = 10 then (9:ℚ)/10 else 4/5,
          if c = 10 then (9:ℚ)/10 else 4/5]) = some (p, v)
    ∧ p ∈ [(1:ℚ)/10, 1, 10, 100]
    ∧ cvMean (fun c => some [if c = 10 then (9:ℚ)/10 else 4/5,
          if c = 10 then (9:ℚ)/10 else 4/5]) p = some v
    ∧ [(1:ℚ)/10, 1, 10, 100] = l₁ ++ p :: l₂
    ∧ (∀ q ∈ [(1:ℚ)/10, 1, 10, 100], ∀ w,
        cvMean (fun c => some [if c = 10 then (9:ℚ)/10 else 4/5,
          if c = 10 then (9:ℚ)/10 else 4/5]) q = some w → w ≤ v)
    ∧ (∀ q ∈ l₁, ∀ w,
        cvMean (fun c => some [if c = 10 then (9:ℚ)/10 else 4/5,
          if c = 10 then (9:ℚ)/10 else 4/5]) q = some w → w < v) :=
  ⟨by decide, C3_gridSearch_max_first _ _ (by decide)⟩

/-! ## Helper lemmas: standardizer -/

theorem sum_map_affine (l : List ℚ) (a b : ℚ) :
    (l.map (fun x => a * x + b)).sum = a * l.sum + b * l.length := by
  induction l with
  | nil => simp
  | cons x xs ih =>
      simp only [List.map_cons, List.sum_cons, ih, List.length_cons]
      push_cast
      ring

theorem sum_map_mul_left (l : List ℚ) (g : ℚ → ℚ) (a : ℚ) :
    (l.map (fun x => a * g x)).sum = a * (l.map g).sum := by
  induction l with
  | nil => simp
  | cons x xs ih =>
      simp only [List.map_cons, List.sum_cons, ih]
      ring

theorem seqCol_map_some (l : List ℚ) (g : ℚ → ℚ) :
    seqCol (l.map (fun x => some (g x))) = some (l.map g) := by
  induction l with
  | nil => rfl
  | cons x xs ih => simp [seqCol, ih]

theorem colMean_const {l : List ℚ} {k : ℚ} (h : ∀ x ∈ l, x = k)
    (hne : l ≠ []) : colMean l = k := by
  have hsum : l.sum = l.length • k := List.sum_eq_card_nsmul l k h
  have hn : ((l.length : ℚ)) ≠ 0 := by
    exact_mod_cast Nat.pos_iff_ne_zero.mp (List.length_pos.mpr hne)
  rw [colMean, hsum, nsmul_eq_mul]
  field_simp

theorem popVar_const {l : List ℚ} {k : ℚ} (h : ∀ x ∈ l, x = k) :
    popVar l = 0 := by
  rcases eq_or_ne l [] with rfl | hne
  · simp [popVar, sqDevSum, cov]
  · have hm : colMean l = k := colMean_const h hne
    have hS : sqDevSum l = 0 := by
      rw [sqDevSum_eq_sum_sq]
      apply List.sum_eq_zero
      intro x hx
      obtain ⟨y, hy, rfl⟩ := List.mem_map.mp hx
      rw [h y hy, hm]
      ring
    rw [popVar, hS]
    simp

/-- C6: when a training feature column is constant (zero variance), the
scale `sqrt(var) = 0` is replaced by `1` (scikit-learn
`_handle_zeros_in_scale`), so standardization produces no NaN/Inf entry in
either the transformed train or the transformed test column, and the
transformed training column is identically `0`. -/
theorem C6_constant_column_no_nan (train test : List ℚ) (s : ℚ)
    (hs : s * s = popVar train) (hconst : ∃ k, ∀ x ∈ train, x = k) :
    (∀ y ∈ (standardize train test s).1, y.isSome)
  ∧ (∀ y ∈ (standardize train test s).2, y.isSome)
  ∧ (∀ y ∈ (standardize train test s).1, y = some 0) := by
  obtain ⟨k, hk⟩ := hconst
  have hvar : popVar train = 0 := popVar_const hk
  have hs0 : s = 0 := mul_self_eq_zero.mp (hs.trans hvar)
  subst hs0
  have hdiv : ∀ a : ℚ, safeDiv a (if (0:ℚ) = 0 then 1 else 0) = some a := by
    intro a
    simp [safeDiv]
  refine ⟨?_, ?_, ?_⟩
  · intro y hy
    obtain ⟨x, _, rfl⟩ := List.mem_map.mp hy
    rw [hdiv]
    rfl
  · intro y hy
    obtain ⟨x, _, rfl⟩ := List.mem_map.mp hy
    rw [hdiv]
    rfl
  · intro y hy
    obtain ⟨x, hx, rfl⟩ := List.mem_map.mp hy
    have hne : train ≠ [] := List.ne_nil_of_mem hx
    rw [hdiv, hk x hx, colMean_const hk hne]
    norm_num

/-- Witness for C6 at the constant training column `[3, 3]`. -/
theorem C6_constant_column_no_nan_witness :
    ((0:ℚ) * 0 = popVar [(3:ℚ), 3] ∧ ∃ k, ∀ x ∈ [(3:ℚ), 3], x = k)
  ∧ ((∀ y ∈ (standardize [(3:ℚ), 3] [7] 0).1, y.isSome)
  ∧ (∀ y ∈ (standardize [(3:ℚ), 3] [7] 0).2, y.isSome)
  ∧ (∀ y ∈ (standardize [(3:ℚ), 3] [7] 0).1, y = some 0)) :=
  ⟨⟨by norm_num [popVar, sqDevSum, cov, colMean], 3, by decide⟩,
    C6_constant_column_no_nan [3, 3] [7] 0
      (by norm_num [popVar, sqDevSum, cov, colMean]) ⟨3, by decide⟩⟩

/-- C5 counterexample: for the constant training column `[1, 1]` (true
scale `s = 0` since the training variance is `0`), the transformed training
column is `[0, 0]`, whose standard deviation is `0`, not `≈ 1` — so "every
feature of the transformed training subset has standard deviation ≈ 1" fails
as stated. -/
theorem C5_counterexample :
    ((0:ℚ) * 0 = popVar [(1:ℚ), 1])
  ∧ seqCol (standardize [(1:ℚ), 1] [] 0).1 = some [0, 0]
  ∧ popVar [(0:ℚ), 0] = 0
  ∧ popVar [(0:ℚ), 0] ≠ 1 := by
  refine ⟨by norm_num [popVar, sqDevSum, cov, colMean], ?_, ?_, ?_⟩
  · simp [standardize, transformCol, safeDiv, seqCol, colMean]
  · norm_num [popVar, sqDevSum, cov, colMean]
  · norm_num [popVar, sqDevSum, cov, colMean]

/-- C5 (amended): the scaler parameters come from the training column only
and are applied identically to train and test (the test column never
influences the transform); the transformed training column always has mean
exactly `0`, and whenever the feature's training variance is nonzero its
transformed training variance is exactly `1` (for a zero-variance feature it
is `0`, see the counterexample); the test column's statistics are not
constrained. -/
theorem C5_standardizer_train_only (train test : List ℚ) (s : ℚ)
    (hs : s * s = popVar train) :
    (∀ test', (standardize train test' s).1 = (standardize train test s).1)
  ∧ (standardize train test s).2 = transformCol (colMean train) s test
  ∧ ∃ u, seqCol (standardize train test s).1 = some u
      ∧ colMean u = 0
      ∧ (popVar train ≠ 0 → popVar u = 1) := by
  set m := colMean train with hm
  set c := (if s = 0 then 1 else s) with hcdef
  have hc : c ≠ 0 := by
    rw [hcdef]
    by_cases h : s = 0 <;> simp [h]
  have h1 : (standardize train test s).1 =
      train.map (fun x => some ((x - m) / c)) := by
    show transformCol m s train = _
    unfold transformCol safeDiv
    apply List.map_congr_left
    intro x _
    rw [← hcdef, if_neg hc]
  have hseq : seqCol (standardize train test s).1 =
      some (train.map (fun x => (x - m) / c)) := by
    rw [h1, seqCol_map_some]
  set u := train.map (fun x => (x - m) / c) with hu
  have hulen : u.length = train.length := by rw [hu, List.length_map]
  have huaff : u = train.map (fun x => (1/c) * x + (-(m/c))) := by
    rw [hu]
    apply List.map_congr_left
    intro x _
    field_simp
    ring
  have husum : u.sum = (1/c) * train.sum + (-(m/c)) * train.length := by
    rw [huaff, sum_map_affine]
  have hmean : colMean u = 0 := by
    rcases Nat.eq_zero_or_pos train.length with h0 | hpos
    · have : train = [] := List.length_eq_zero.mp h0
      subst this
      simp [colMean, hu]
    · have hn : ((train.length : ℚ)) ≠ 0 := by
        exact_mod_cast Nat.pos_iff_ne_zero.mp hpos
      have hmsum : m * train.length = train.sum := by
        rw [hm, colMean]
        field_simp
      have hzero : 1 / c * train.sum + -(m / c) * (train.length : ℚ) = 0 := by
        rw [← hmsum]
        field_simp
      rw [colMean, hulen, husum, hzero, zero_div]
  refine ⟨fun _ => rfl, rfl, u, hseq, hmean, ?_⟩
  intro hvar
  have hS : sqDevSum train ≠ 0 := (popVar_ne_zero_iff train).mp hvar
  have hne : train ≠ [] := by
    intro h0
    exact hS (by simp [h0, sqDevSum, cov])
  have hn : ((train.length : ℚ)) ≠ 0 := by
    exact_mod_cast Nat.pos_iff_ne_zero.mp (List.length_pos.mpr hne)
  have hs0 : s ≠ 0 := by
    intro h0
    rw [h0] at hs
    exact hvar (by rw [← hs]; ring)
  have hcs : c = s := by rw [hcdef, if_neg hs0]
  have hSu : sqDevSum u = (1/(s*s)) * sqDevSum train := by
    rw [sqDevSum_eq_sum_sq, hmean]
    have : u.map (fun x => (x - 0) ^ 2) =
        train.map (fun x => (1/(s*s)) * (x - m) ^ 2) := by
      rw [hu, List.map_map]
      apply List.map_congr_left
      intro x _
      simp only [Function.comp_apply, hcs]
      rw [sub_zero, div_pow, pow_two, one_div_mul_eq_div, pow_two]
    rw [this, sum_map_mul_left, sqDevSum_eq_sum_sq, ← hm]
  have hSval : sqDevSum train = s * s * train.length := by
    have := hs
    rw [popVar] at this
    field_simp at this
    linarith [this]
  rw [popVar, hSu, hSval, hulen]
  field_simp

/-- Witness for C5 at the training column `[0, 2]` (mean `1`, variance `1`,
scale `1`) and test column `[5]`. -/
theorem C5_standardizer_train_only_witness :
    ((1:ℚ) * 1 = popVar [(0:ℚ), 2])
  ∧ ((∀ test', (standardize [(0:ℚ), 2] test' 1).1 =
        (standardize [(0:ℚ), 2] [5] 1).1)
  ∧ (standardize [(0:ℚ), 2] [5] 1).2 = transformCol (colMean [(0:ℚ), 2]) 1 [5]
  ∧ ∃ u, seqCol (standardize [(0:ℚ), 2] [5] 1).1 = some u
      ∧ colMean u = 0
      ∧ (popVar [(0:ℚ), 2] ≠ 0 → popVar u = 1)) :=
  ⟨by norm_num [popVar, sqDevSum, cov, colMean],
    C5_standardizer_train_only [0, 2] [5] 1
      (by norm_num [popVar, sqDevSum, cov, colMean])⟩

/-! ## Balancer: behaviour on a tied majority -/

/-- C1 evaluation at the failing input `[(0, 10), (1, 20)]` (two labels,
one row each, so the maximal count `1` is attained by both): the source
excludes label `1` from `minority_classes` because its count equals the
maximum, yet keeps only the rows of `majority_class = 0`, so label `1`
disappears from the balanced data entirely — its post-balance count is `0`,
not the majority count `1`, and the result is not balanced. -/
theorem C1_tie_drops_label :
    labs [((0:Nat), 10), (1, 20)] = [0, 1]
  ∧ maxCount [((0:Nat), 10), (1, 20)] = 1
  ∧ cnt [((0:Nat), 10), (1, 20)] 1 = 1
  ∧ minorityClasses [((0:Nat), 10), (1, 20)] = []
  ∧ balanceData 42 [((0:Nat), 10), (1, 20)] = [(0, 10)]
  ∧ cnt (balanceData 42 [((0:Nat), 10), (1, 20)]) 1 = 0 := by decide

/-! ## Determinism of the seeded pipeline -/

/-- C9: resampling, shuffling and splitting are driven by the fixed seed
42 wired into the source, so the pipeline is a pure function of the input
dataset: two runs on the same input produce identical balanced data and
identical train/test row assignments (in this pure seeded embedding,
determinism holds definitionally). -/
theorem C9_fixed_seed_determinism (d₁ d₂ : List Row) (h : d₁ = d₂) :
    pipelineBalanced d₁ = pipelineBalanced d₂
  ∧ pipelineSplit d₁ = pipelineSplit d₂
  ∧ pipelineBalanced d₁ = balanceData 42 d₁
  ∧ pipelineSplit d₁ = splitStrat 42 (1/5) (balanceData 42 d₁) := by
  subst h
  exact ⟨rfl, rfl, rfl, rfl⟩

/-- Witness for C9 at a concrete three-row dataset. -/
theorem C9_fixed_seed_determinism_witness :
    pipelineBalanced [((0:Nat), 0), (1, 1), (0, 2)] =
      pipelineBalanced [((0:Nat), 0), (1, 1), (0, 2)]
  ∧ pipelineSplit [((0:Nat), 0), (1, 1), (0, 2)] =
      pipelineSplit [((0:Nat), 0), (1, 1), (0, 2)]
  ∧ pipelineBalanced [((0:Nat), 0), (1, 1), (0, 2)] =
      balanceData 42 [((0:Nat), 0), (1, 1), (0, 2)]
  ∧ pipelineSplit [((0:Nat), 0), (1, 1), (0, 2)] =
      splitStrat 42 (1/5) (balanceData 42 [((0:Nat), 0), (1, 1), (0, 2)]) :=
  C9_fixed_seed_determinism _ _ rfl

/-! ## Helper lemmas: counting rows by label -/

theorem cnt_append (l₁ l₂ : List Row) (ℓ : Nat) :
    cnt (l₁ ++ l₂) ℓ = cnt l₁ ℓ + cnt l₂ ℓ := by
  unfold cnt
  rw [List.filter_append, List.length_append]

theorem cnt_eq_length_of_all {l : List Row} {ℓ : Nat}
    (h : ∀ r ∈ l, r.1 = ℓ) : cnt l ℓ = l.length := by
  unfold cnt
  rw [List.filter_eq_self.mpr (fun r hr => by simp [h r hr])]

theorem cnt_eq_zero_of_all_ne {l : List Row} {ℓ : Nat}
    (h : ∀ r ∈ l, r.1 ≠ ℓ) : cnt l ℓ = 0 := by
  unfold cnt
  rw [List.length_eq_zero, List.filter_eq_nil_iff]
  intro r hr
  simp [h r hr]

theorem mem_filter_label {d : List Row} {ℓ : Nat} {r : Row}
    (h : r ∈ d.filter (fun r => r.1 == ℓ)) : r.1 = ℓ := by
  have := (List.mem_filter.mp h).2
  simpa using this

theorem flatMap_congr_of_mem {α β : Type} {l : List α} {f g : α → List β}
    (h : ∀ x ∈ l, f x = g x) : l.flatMap f = l.flatMap g := by
  induction l with
  | nil => rfl
  | cons x xs ih =>
      rw [List.flatMap_cons, List.flatMap_cons, h x (by simp),
        ih (fun y hy => h y (by simp [hy]))]

theorem flatMap_perm_of_mem {α β : Type} {l : List α} {f g : α → List β}
    (h : ∀ x ∈ l, (f x).Perm (g x)) : (l.flatMap f).Perm (l.flatMap g) := by
  induction l with
  | nil => exact List.Perm.refl _
  | cons x xs ih =>
      rw [List.flatMap_cons, List.flatMap_cons]
      exact (h x (by simp)).append (ih (fun y hy => h y (by simp [hy])))

theorem flatMap_append_perm {α β : Type} (l : List α) (f g : α → List β) :
    ((l.flatMap f) ++ (l.flatMap g)).Perm (l.flatMap (fun x => f x ++ g x)) := by
  induction l with
  | nil => exact List.Perm.refl _
  | cons x xs ih =>
      rw [List.flatMap_cons, List.flatMap_cons, List.flatMap_cons]
      have h1 : ((f x ++ xs.flatMap f) ++ (g x ++ xs.flatMap g)).Perm
          ((f x ++ g x) ++ (xs.flatMap f ++ xs.flatMap g)) := by
        have e1 : (f x ++ xs.flatMap f) ++ (g x ++ xs.flatMap g) =
            f x ++ (xs.flatMap f ++ g x ++ xs.flatMap g) := by
          simp [List.append_assoc]
        have e2 : (f x ++ g x) ++ (xs.flatMap f ++ xs.flatMap g) =
            f x ++ (g x ++ xs.flatMap f ++ xs.flatMap g) := by
          simp [List.append_assoc]
        rw [e1, e2]
        apply List.Perm.append_left
        have : (xs.flatMap f ++ g x).Perm (g x ++ xs.flatMap f) :=
          List.perm_append_comm
        simpa [List.append_assoc] using this.append_right (xs.flatMap g)
      exact h1.trans (List.Perm.append_left _ ih)

/-- Grouping the rows of `d` by the (nodup, exhaustive) label list `ls` is a
permutation of `d`. -/
theorem partition_perm : ∀ (ls : List Nat) (d : List Row), ls.Nodup →
    (∀ r ∈ d, r.1 ∈ ls) →
    (ls.flatMap (fun ℓ => d.filter (fun r => r.1 == ℓ))).Perm d
  | [], d, _, h => by
      have : d = [] := by
        apply List.eq_nil_iff_forall_not_mem.mpr
        intro r hr
        exact absurd (h r hr) (List.not_mem_nil _)
      simp [this]
  | ℓ :: ls, d, hnd, h => by
      have hnd' : ls.Nodup := (List.nodup_cons.mp hnd).2
      have hℓ : ℓ ∉ ls := (List.nodup_cons.mp hnd).1
      set d' := d.filter (fun r => !(r.1 == ℓ)) with hd'
      have hblocks : ∀ ℓ' ∈ ls,
          d.filter (fun r => r.1 == ℓ') = d'.filter (fun r => r.1 == ℓ') := by
        intro ℓ' hℓ'
        have hne : ℓ' ≠ ℓ := fun he => hℓ (he ▸ hℓ')
        rw [hd', List.filter_filter]
        apply List.filter_congr
        intro r _
        by_cases hr : r.1 = ℓ'
        · simp [hr, hne]
        · simp [hr]
      have hmem' : ∀ r ∈ d', r.1 ∈ ls := by
        intro r hr
        have h1 := List.mem_filter.mp hr
        have h2 := h r h1.1
        rcases List.mem_cons.mp h2 with he | hi
        · exfalso
          have := h1.2
          simp [he] at this
        · exact hi
      have ih := partition_perm ls d' hnd' hmem'
      rw [List.flatMap_cons, flatMap_congr_of_mem hblocks]
      have hsplit : (d.filter (fun r => r.1 == ℓ) ++ d').Perm d := by
        rw [hd']
        exact List.filter_append_perm _ d
      exact (List.Perm.append_left _ ih).trans hsplit

/-- The per-label counts over the distinct labels sum to the number of
rows. -/
theorem sum_cnt (d : List Row) :
    ((labs d).map (cnt d)).sum = d.length := by
  have hp := partition_perm (labs d) d (nodup_labs d)
    (fun r hr => (mem_labs d r.1).mpr ⟨r, hr, rfl⟩)
  have hlen := hp.length_eq
  rw [List.length_flatMap] at hlen
  rw [← hlen]
  congr 1

/-! ## Helper lemmas: floor arithmetic for the stratified allocation -/

theorem baseShare_add_one_le {f : ℚ} {n : Nat} (hf0 : 0 ≤ f) (hf1 : f < 1)
    (hn : 1 ≤ n) : baseShare f n + 1 ≤ n := by
  have hnq : (0:ℚ) < n := by exact_mod_cast hn
  have h1 : f * n < n := by
    calc f * (n:ℚ) < 1 * n := mul_lt_mul_of_pos_right hf1 hnq
    _ = n := one_mul _
  have h2 : ⌊f * (n:ℚ)⌋ < (n:ℤ) := Int.floor_lt.mpr (by exact_mod_cast h1)
  have h3 : 0 ≤ ⌊f * (n:ℚ)⌋ := Int.floor_nonneg.mpr (mul_nonneg hf0 hnq.le)
  unfold baseShare
  omega

theorem sum_toNat_cast {α : Type} (ls : List α) (g : α → ℤ)
    (h : ∀ x ∈ ls, 0 ≤ g x) :
    (((ls.map (fun x => (g x).toNat)).sum : ℕ) : ℤ) = (ls.map g).sum := by
  induction ls with
  | nil => simp
  | cons x xs ih =>
      simp only [List.map_cons, List.sum_cons, Nat.cast_add]
      rw [Int.toNat_of_nonneg (h x (by simp)),
        ih (fun y hy => h y (by simp [hy]))]

theorem sum_floor_le_floor_sum : ∀ qs : List ℚ,
    (qs.map (fun q => ⌊q⌋)).sum ≤ ⌊qs.sum⌋
  | [] => by simp
  | q :: qs => by
      simp only [List.map_cons, List.sum_cons]
      have ih := sum_floor_le_floor_sum qs
      have hstep : ⌊q⌋ + ⌊qs.sum⌋ ≤ ⌊q + qs.sum⌋ := by
        apply Int.le_floor.mpr
        push_cast
        exact add_le_add (Int.floor_le q) (Int.floor_le qs.sum)
      omega

theorem sum_lt_sum_floor_add_length : ∀ qs : List ℚ, qs ≠ [] →
    qs.sum < ((qs.map (fun q => ⌊q⌋)).sum : ℚ) + qs.length
  | [], h => absurd rfl h
  | [q], _ => by
      simp only [List.map_cons, List.map_nil, List.sum_cons, List.sum_nil,
        List.length_cons, List.length_nil]
      push_cast
      linarith [Int.lt_floor_add_one q]
  | q :: q' :: qs, _ => by
      have ih := sum_lt_sum_floor_add_length (q' :: qs) (by simp)
      have hq := Int.lt_floor_add_one q
      simp only [List.map_cons, List.sum_cons, List.length_cons] at ih ⊢
      push_cast at ih ⊢
      linarith

theorem sum_map_const_mul {α : Type} (l : List α) (g : α → ℚ) (a : ℚ) :
    (l.map (fun x => a * g x)).sum = a * (l.map g).sum := by
  induction l with
  | nil => simp
  | cons x xs ih =>
      simp only [List.map_cons, List.sum_cons, ih]
      ring

/-! ## Helper lemmas: the per-label test allocation -/

theorem alloc_map_fst (f : ℚ) (d : List Row) :
    ∀ (ls : List Nat) (r : Nat), (alloc f d ls r).map Prod.fst = ls
  | [], _ => rfl
  | ℓ :: ls, r => by
      rw [alloc]
      by_cases hr : r = 0
      · rw [if_pos hr, List.map_cons, alloc_map_fst f d ls 0]
      · rw [if_neg hr, List.map_cons, alloc_map_fst f d ls (r - 1)]

theorem alloc_mem_spec (f : ℚ) (d : List Row) :
    ∀ (ls : List Nat) (r : Nat), ∀ p ∈ alloc f d ls r,
      p.2 = baseShare f (cnt d p.1) ∨ p.2 = baseShare f (cnt d p.1) + 1
  | [], _, p, hp => absurd hp (List.not_mem_nil p)
  | ℓ :: ls, r, p, hp => by
      rw [alloc] at hp
      by_cases hr : r = 0
      · rw [if_pos hr] at hp
        rcases List.mem_cons.mp hp with rfl | hp'
        · exact Or.inl rfl
        · exact alloc_mem_spec f d ls 0 p hp'
      · rw [if_neg hr] at hp
        rcases List.mem_cons.mp hp with rfl | hp'
        · exact Or.inr rfl
        · exact alloc_mem_spec f d ls (r - 1) p hp'

theorem alloc_sum_snd (f : ℚ) (d : List Row) :
    ∀ (ls : List Nat) (r : Nat),
      ((alloc f d ls r).map Prod.snd).sum =
        (ls.map (fun ℓ => baseShare f (cnt d ℓ))).sum + min r ls.length
  | [], r => by simp [alloc]
  | ℓ :: ls, r => by
      rw [alloc]
      by_cases hr : r = 0
      · rw [if_pos hr]
        have ih := alloc_sum_snd f d ls 0
        simp only [List.map_cons, List.sum_cons, ih, hr]
        omega
      · rw [if_neg hr]
        have ih := alloc_sum_snd f d ls (r - 1)
        simp only [List.map_cons, List.sum_cons, ih, List.length_cons]
        omega

theorem alloc_exists_pair (f : ℚ) (d : List Row) (ls : List Nat) (r : Nat)
    (ℓ : Nat) (hℓ : ℓ ∈ ls) :
    ∃ t, (ℓ, t) ∈ alloc f d ls r ∧
      (t = baseShare f (cnt d ℓ) ∨ t = baseShare f (cnt d ℓ) + 1) := by
  have hmap : ℓ ∈ (alloc f d ls r).map Prod.fst := by
    rw [alloc_map_fst]
    exact hℓ
  obtain ⟨p, hp, hfst⟩ := List.mem_map.mp hmap
  obtain ⟨a, t⟩ := p
  have ha : a = ℓ := hfst
  subst ha
  exact ⟨t, hp, alloc_mem_spec f d ls r (a, t) hp⟩

/-! ## Helper lemmas: taking and dropping the per-label parts -/

theorem cnt_takeParts_not_mem (d : List Row) :
    ∀ (tc : List (Nat × Nat)) (ℓ : Nat), ℓ ∉ tc.map Prod.fst →
      cnt (takeParts d tc) ℓ = 0
  | [], ℓ, _ => rfl
  | p :: tc, ℓ, h => by
      have hne : p.1 ≠ ℓ := fun he => h (by simp [he])
      have h' : ℓ ∉ tc.map Prod.fst := fun hm => h (by simp [hm])
      show cnt ((d.filter (fun r => r.1 == p.1)).take p.2 ++ takeParts d tc) ℓ = 0
      rw [cnt_append, cnt_takeParts_not_mem d tc ℓ h',
        cnt_eq_zero_of_all_ne (fun r hr =>
          (mem_filter_label (List.mem_of_mem_take hr)) ▸ hne)]

theorem cnt_dropParts_not_mem (d : List Row) :
    ∀ (tc : List (Nat × Nat)) (ℓ : Nat), ℓ ∉ tc.map Prod.fst →
      cnt (dropParts d tc) ℓ = 0
  | [], ℓ, _ => rfl
  | p :: tc, ℓ, h => by
      have hne : p.1 ≠ ℓ := fun he => h (by simp [he])
      have h' : ℓ ∉ tc.map Prod.fst := fun hm => h (by simp [hm])
      show cnt ((d.filter (fun r => r.1 == p.1)).drop p.2 ++ dropParts d tc) ℓ = 0
      rw [cnt_append, cnt_dropParts_not_mem d tc ℓ h',
        cnt_eq_zero_of_all_ne (fun r hr =>
          (mem_filter_label (List.mem_of_mem_drop hr)) ▸ hne)]

theorem cnt_takeParts (d : List Row) :
    ∀ (tc : List (Nat × Nat)), (tc.map Prod.fst).Nodup →
      ∀ p ∈ tc, cnt (takeParts d tc) p.1 = min p.2 (cnt d p.1)
  | [], _, p, hp => absurd hp (List.not_mem_nil p)
  | q :: tc, hnd, p, hp => by
      have hnd' : (tc.map Prod.fst).Nodup :=
        (List.nodup_cons.mp (by simpa using hnd)).2
      have hq : q.1 ∉ tc.map Prod.fst :=
        (List.nodup_cons.mp (by simpa using hnd)).1
      show cnt ((d.filter (fun r => r.1 == q.1)).take q.2 ++ takeParts d tc) p.1 =
        min p.2 (cnt d p.1)
      rcases List.mem_cons.mp hp with rfl | hp'
      · rw [cnt_append, cnt_takeParts_not_mem d tc p.1 hq,
          cnt_eq_length_of_all (fun r hr => mem_filter_label (List.mem_of_mem_take hr)),
          List.length_take]
        rfl
      · have hpin : p.1 ∈ tc.map Prod.fst := List.mem_map.mpr ⟨p, hp', rfl⟩
        have hne : q.1 ≠ p.1 := fun he => hq (he ▸ hpin)
        rw [cnt_append,
          cnt_eq_zero_of_all_ne (fun r hr =>
            (mem_filter_label (List.mem_of_mem_take hr)) ▸ hne),
          cnt_takeParts d tc hnd' p hp']
        omega

theorem cnt_dropParts (d : List Row) :
    ∀ (tc : List (Nat × Nat)), (tc.map Prod.fst).Nodup →
      ∀ p ∈ tc, cnt (dropParts d tc) p.1 = cnt d p.1 - p.2
  | [], _, p, hp => absurd hp (List.not_mem_nil p)
  | q :: tc, hnd, p, hp => by
      have hnd' : (tc.map Prod.fst).Nodup :=
        (List.nodup_cons.mp (by simpa using hnd)).2
      have hq : q.1 ∉ tc.map Prod.fst :=
        (List.nodup_cons.mp (by simpa using hnd)).1
      show cnt ((d.filter (fun r => r.1 == q.1)).drop q.2 ++ dropParts d tc) p.1 =
        cnt d p.1 - p.2
      rcases List.mem_cons.mp hp with rfl | hp'
      · rw [cnt_append, cnt_dropParts_not_mem d tc p.1 hq,
          cnt_eq_length_of_all (fun r hr => mem_filter_label (List.mem_of_mem_drop hr)),
          List.length_drop]
        rfl
      · have hpin : p.1 ∈ tc.map Prod.fst := List.mem_map.mpr ⟨p, hp', rfl⟩
        have hne : q.1 ≠ p.1 := fun he => hq (he ▸ hpin)
        rw [cnt_append,
          cnt_eq_zero_of_all_ne (fun r hr =>
            (mem_filter_label (List.mem_of_mem_drop hr)) ▸ hne),
          cnt_dropParts d tc hnd' p hp']
        omega

theorem length_takeParts (d : List Row) (tc : List (Nat × Nat))
    (h : ∀ p ∈ tc, p.2 ≤ cnt d p.1) :
    (takeParts d tc).length = (tc.map Prod.snd).sum := by
  unfold takeParts
  rw [List.length_flatMap]
  congr 1
  apply List.map_congr_left
  intro p hp
  simp only [Function.comp_apply]
  rw [List.length_take]
  exact min_eq_left (h p hp)

theorem flatMap_over_map_fst (d : List Row) : ∀ tc : List (Nat × Nat),
    tc.flatMap (fun p => d.filter (fun r => r.1 == p.1)) =
      (tc.map Prod.fst).flatMap (fun ℓ => d.filter (fun r => r.1 == ℓ))
  | [] => rfl
  | q :: rest => by
      simp only [List.flatMap_cons, List.map_cons, flatMap_over_map_fst d rest]

/-- The train and test parts together are a permutation of the grouped
dataset. -/
theorem parts_perm (d : List Row) (tc : List (Nat × Nat))
    (h : tc.map Prod.fst = labs d) :
    ((dropParts d tc) ++ (takeParts d tc)).Perm d := by
  have h1 : ((dropParts d tc) ++ (takeParts d tc)).Perm
      (tc.flatMap (fun p => (d.filter (fun r => r.1 == p.1)).drop p.2 ++
        (d.filter (fun r => r.1 == p.1)).take p.2)) :=
    flatMap_append_perm tc _ _
  have h2 : (tc.flatMap (fun p => (d.filter (fun r => r.1 == p.1)).drop p.2 ++
      (d.filter (fun r => r.1 == p.1)).take p.2)).Perm
      (tc.flatMap (fun p => d.filter (fun r => r.1 == p.1))) := by
    apply flatMap_perm_of_mem
    intro p _
    have hc := @List.perm_append_comm Row
      ((d.filter (fun r => r.1 == p.1)).drop p.2)
      ((d.filter (fun r => r.1 == p.1)).take p.2)
    rw [List.take_append_drop] at hc
    exact hc
  have h3 := flatMap_over_map_fst d tc
  have h4 : ((tc.map Prod.fst).flatMap
      (fun ℓ => d.filter (fun r => r.1 == ℓ))).Perm d := by
    rw [h]
    exact partition_perm (labs d) d (nodup_labs d)
      (fun r hr => (mem_labs d r.1).mpr ⟨r, hr, rfl⟩)
  exact ((h1.trans h2).trans (h3 ▸ h4))

/-! ## Helper lemmas: sizes of the stratified allocation -/

theorem natCast_sum_map {α : Type} (l : List α) (g : α → Nat) :
    (((l.map g).sum : Nat) : ℚ) = (l.map (fun x => (g x : ℚ))).sum := by
  induction l with
  | nil => simp
  | cons x xs ih =>
      simp only [List.map_cons, List.sum_cons, Nat.cast_add, ih]

theorem baseSum_le_nTest (f : ℚ) (d : List Row) (hf0 : 0 ≤ f) :
    baseSum f d ≤ nTest f d := by
  have hcast : ((baseSum f d : ℕ) : ℤ) =
      ((labs d).map (fun ℓ => ⌊f * (cnt d ℓ : ℚ)⌋)).sum := by
    unfold baseSum baseShare
    exact sum_toNat_cast (labs d) _
      (fun ℓ _ => Int.floor_nonneg.mpr (mul_nonneg hf0 (by positivity)))
  have hfloorsum :
      (((labs d).map (fun ℓ => f * (cnt d ℓ : ℚ))).map (fun q => ⌊q⌋)).sum ≤
        ⌊((labs d).map (fun ℓ => f * (cnt d ℓ : ℚ))).sum⌋ :=
    sum_floor_le_floor_sum _
  rw [List.map_map] at hfloorsum
  have hsum : ((labs d).map (fun ℓ => f * (cnt d ℓ : ℚ))).sum =
      f * (d.length : ℚ) := by
    rw [sum_map_const_mul]
    congr 1
    rw [← sum_cnt d, natCast_sum_map]
  rw [hsum] at hfloorsum
  have hle : ((baseSum f d : ℕ) : ℤ) ≤ ⌈f * (d.length : ℚ)⌉ := by
    rw [hcast]
    exact le_trans hfloorsum (Int.floor_le_ceil _)
  have hnonneg : 0 ≤ ⌈f * (d.length : ℚ)⌉ :=
    Int.ceil_nonneg (mul_nonneg hf0 (by positivity))
  unfold nTest
  omega

theorem nTest_le_baseSum_add (f : ℚ) (d : List Row) (hf0 : 0 ≤ f)
    (hd : d ≠ []) : nTest f d ≤ baseSum f d + (labs d).length := by
  have hlabs : labs d ≠ [] := by
    obtain ⟨r, hr⟩ := List.exists_mem_of_ne_nil d hd
    exact List.ne_nil_of_mem ((mem_labs d r.1).mpr ⟨r, hr, rfl⟩)
  have hcast : ((baseSum f d : ℕ) : ℤ) =
      ((labs d).map (fun ℓ => ⌊f * (cnt d ℓ : ℚ)⌋)).sum := by
    unfold baseSum baseShare
    exact sum_toNat_cast (labs d) _
      (fun ℓ _ => Int.floor_nonneg.mpr (mul_nonneg hf0 (by positivity)))
  set qs := (labs d).map (fun ℓ => f * (cnt d ℓ : ℚ)) with hqs
  have hqs_ne : qs ≠ [] := by
    rw [hqs]
    simpa using hlabs
  have hsum : qs.sum = f * (d.length : ℚ) := by
    rw [hqs, sum_map_const_mul]
    congr 1
    rw [← sum_cnt d, natCast_sum_map]
  have hlt : qs.sum < ((qs.map (fun q => ⌊q⌋)).sum : ℚ) + qs.length :=
    sum_lt_sum_floor_add_length qs hqs_ne
  have hfl : ⌊qs.sum⌋ < (qs.map (fun q => ⌊q⌋)).sum + (qs.length : ℤ) := by
    apply Int.floor_lt.mpr
    rw [Int.cast_add, Int.cast_natCast]
    exact hlt
  have hceil : ⌈qs.sum⌉ ≤ ⌊qs.sum⌋ + 1 := Int.ceil_le_floor_add_one _
  have hflsum : (qs.map (fun q => ⌊q⌋)).sum =
      ((labs d).map (fun ℓ => ⌊f * (cnt d ℓ : ℚ)⌋)).sum := by
    rw [hqs, List.map_map]
    rfl
  have hlen : qs.length = (labs d).length := by
    rw [hqs, List.length_map]
  have hnonneg : 0 ≤ ⌈f * (d.length : ℚ)⌉ :=
    Int.ceil_nonneg (mul_nonneg hf0 (by positivity))
  have hfinal : ⌈f * (d.length : ℚ)⌉ ≤
      ((baseSum f d : ℕ) : ℤ) + ((labs d).length : ℤ) := by
    rw [hcast, ← hflsum, ← hsum, ← hlen]
    omega
  unfold nTest
  omega

/-- C4: for a nonempty dataset and a test fraction strictly between `0` and
`1`, the stratified split puts `⌈f·N⌉` rows in the test subset and the
remaining `⌊(1-f)·N⌋` rows in the train subset, train and test together are
a permutation of the input (disjoint subsets whose union is the input, in
multiset terms), and every label's test count is its proportional share
`⌊f·n_ℓ⌋` up to rounding (`+1` at most), the label's train count being the
rest; with `f = 0.2` and `N = 300` this gives 240 train and 60 test rows. -/
theorem C4_stratified_split (s : Nat) (f : ℚ) (d : List Row)
    (hd : d ≠ []) (hf0 : 0 < f) (hf1 : f < 1) :
    (splitStrat s f d).2.length = nTest f d
  ∧ (splitStrat s f d).1.length = d.length - nTest f d
  ∧ ((splitStrat s f d).1.length : ℤ) = ⌊(1 - f) * (d.length : ℚ)⌋
  ∧ ((splitStrat s f d).1 ++ (splitStrat s f d).2).Perm d
  ∧ ∀ ℓ ∈ labs d,
      (cnt (splitStrat s f d).2 ℓ = baseShare f (cnt d ℓ) ∨
        cnt (splitStrat s f d).2 ℓ = baseShare f (cnt d ℓ) + 1)
    ∧ cnt (splitStrat s f d).1 ℓ = cnt d ℓ - cnt (splitStrat s f d).2 ℓ := by
  set e := shuffle s d with he
  have hpe : e.Perm d := shuffle_perm s d
  have hlen_e : e.length = d.length := hpe.length_eq
  have hcnt_e : ∀ ℓ, cnt e ℓ = cnt d ℓ := fun ℓ => cnt_perm hpe ℓ
  have hd_e : e ≠ [] := by
    intro h0
    exact hd (List.eq_nil_iff_forall_not_mem.mpr
      (fun r hr => absurd (hpe.symm.subset hr) (h0 ▸ List.not_mem_nil r)))
  have hmem_e : ∀ ℓ, (ℓ ∈ labs e ↔ ℓ ∈ labs d) := by
    intro ℓ
    rw [mem_labs, mem_labs]
    constructor
    · rintro ⟨r, hr, hrl⟩
      exact ⟨r, hpe.subset hr, hrl⟩
    · rintro ⟨r, hr, hrl⟩
      exact ⟨r, hpe.symm.subset hr, hrl⟩
  have hnTest_e : nTest f e = nTest f d := by
    unfold nTest
    rw [hlen_e]
  set tc := testAlloc f e with htc
  have hsplit1 : (splitStrat s f d).1 = dropParts e tc := rfl
  have hsplit2 : (splitStrat s f d).2 = takeParts e tc := rfl
  have hfst : tc.map Prod.fst = labs e := by
    rw [htc]
    exact alloc_map_fst f e (labs e) _
  have hnd : (tc.map Prod.fst).Nodup := by
    rw [hfst]
    exact nodup_labs e
  have hmemlab : ∀ p ∈ tc, p.1 ∈ labs e := by
    intro p hp
    rw [← hfst]
    exact List.mem_map.mpr ⟨p, hp, rfl⟩
  have hcntpos : ∀ p ∈ tc, 1 ≤ cnt e p.1 :=
    fun p hp => cnt_pos_of_mem_labs e p.1 (hmemlab p hp)
  have hspec : ∀ p ∈ tc,
      p.2 = baseShare f (cnt e p.1) ∨ p.2 = baseShare f (cnt e p.1) + 1 := by
    rw [htc]
    exact alloc_mem_spec f e (labs e) _
  have hble : ∀ p ∈ tc, p.2 ≤ cnt e p.1 := by
    intro p hp
    have h1 := baseShare_add_one_le (f := f) hf0.le hf1 (hcntpos p hp)
    rcases hspec p hp with h | h <;> omega
  have hbs : ((labs e).map (fun ℓ => baseShare f (cnt e ℓ))).sum = baseSum f e := rfl
  have hbs_le := baseSum_le_nTest f e hf0.le
  have hr_le : nTest f e - baseSum f e ≤ (labs e).length := by
    have := nTest_le_baseSum_add f e hf0.le hd_e
    omega
  have hteLen : (takeParts e tc).length = nTest f e := by
    rw [length_takeParts e tc hble, htc]
    show ((alloc f e (labs e) (nTest f e - baseSum f e)).map Prod.snd).sum = _
    rw [alloc_sum_snd, hbs, min_eq_left hr_le]
    omega
  have hperm : ((dropParts e tc) ++ (takeParts e tc)).Perm d :=
    (parts_perm e tc hfst).trans hpe
  have hlensum : (dropParts e tc).length + (takeParts e tc).length = d.length := by
    have := hperm.length_eq
    rwa [List.length_append] at this
  have hteLen' : (takeParts e tc).length = nTest f d := by rw [hteLen, hnTest_e]
  have htrLen : (dropParts e tc).length = d.length - nTest f d := by omega
  have hnt_le : nTest f d ≤ d.length := by omega
  have hz : ((d.length - nTest f d : ℕ) : ℤ) = ⌊(1 - f) * (d.length : ℚ)⌋ := by
    have h1 : ((nTest f d : ℕ) : ℤ) = ⌈f * (d.length : ℚ)⌉ := by
      unfold nTest
      exact Int.toNat_of_nonneg (Int.ceil_nonneg (mul_nonneg hf0.le (by positivity)))
    have harg : (1 - f) * (d.length : ℚ) =
        -(f * (d.length : ℚ)) + ((d.length : ℤ) : ℚ) := by
      push_cast
      ring
    have h2 : ⌊(1 - f) * (d.length : ℚ)⌋ =
        (d.length : ℤ) - ⌈f * (d.length : ℚ)⌉ := by
      rw [harg, Int.floor_add_int]
      have hceil : ⌈f * (d.length : ℚ)⌉ = -⌊-(f * (d.length : ℚ))⌋ := rfl
      omega
    rw [Nat.cast_sub hnt_le, h1, h2]
  refine ⟨by rw [hsplit2, hteLen'], by rw [hsplit1, htrLen], ?_, ?_, ?_⟩
  · rw [hsplit1, htrLen, hz]
  · rw [hsplit1, hsplit2]
    exact hperm
  · intro ℓ hℓd
    have hℓe : ℓ ∈ labs e := (hmem_e ℓ).mpr hℓd
    obtain ⟨t, hmem_tc, hor⟩ :=
      alloc_exists_pair f e (labs e) (nTest f e - baseSum f e) ℓ hℓe
    have hmem_tc' : ((ℓ, t) : Nat × Nat) ∈ tc := by
      rw [htc]
      exact hmem_tc
    have ht_le : t ≤ cnt e ℓ := hble (ℓ, t) hmem_tc'
    have hcnt_te : cnt (takeParts e tc) ℓ = t := by
      have := cnt_takeParts e tc hnd (ℓ, t) hmem_tc'
      simpa [min_eq_left ht_le] using this
    have hcnt_tr : cnt (dropParts e tc) ℓ = cnt e ℓ - t := by
      simpa using cnt_dropParts e tc hnd (ℓ, t) hmem_tc'
    rw [hsplit1, hsplit2, hcnt_te, hcnt_tr, hcnt_e ℓ]
    rw [hcnt_e ℓ] at hor
    exact ⟨hor, rfl⟩

/-- Witness for C4 at a concrete balanced dataset of 300 rows with three
labels of 100 rows each: the split yields 60 test and 240 train rows. -/
theorem C4_stratified_split_witness :
    ((List.range 300).map (fun i => ((i / 100 : Nat), i)) ≠ []
      ∧ (0:ℚ) < 1/5 ∧ (1:ℚ)/5 < 1)
  ∧ (splitStrat 42 (1/5) ((List.range 300).map (fun i => ((i / 100 : Nat), i)))).2.length = 60
  ∧ (splitStrat 42 (1/5) ((List.range 300).map (fun i => ((i / 100 : Nat), i)))).1.length = 240 := by
  have hne : (List.range 300).map (fun i => ((i / 100 : Nat), i)) ≠ [] := by
    simp
  obtain ⟨h1, h2, _⟩ :=
    C4_stratified_split 42 (1/5) ((List.range 300).map (fun i => ((i / 100 : Nat), i)))
      hne (by norm_num) (by norm_num)
  have hlen : ((List.range 300).map (fun i => ((i / 100 : Nat), i))).length = 300 := by
    simp
  have hnt : nTest (1/5) ((List.range 300).map (fun i => ((i / 100 : Nat), i))) = 60 := by
    unfold nTest
    rw [hlen]
    have hceil : ⌈(1/5 : ℚ) * ((300 : Nat) : ℚ)⌉ = 60 := by norm_num
    rw [hceil]
    decide
  exact ⟨⟨hne, by norm_num, by norm_num⟩, by rw [h1, hnt], by rw [h2, hnt, hlen]⟩

/-- C10: the split's error interface (modelled from the spec, scikit-learn's
`train_test_split` being external): it fails with `InsufficientDataError`
exactly when some label has fewer than two rows (too few to put one row on
each side of the stratified split), and succeeds with the train/test pair
otherwise. -/
theorem C10_split_insufficient (s : Nat) (f : ℚ) (d : List Row) :
    (splitChecked s f d = Except.error "InsufficientDataError" ↔
      ∃ ℓ ∈ labs d, cnt d ℓ < 2)
  ∧ (splitChecked s f d = Except.ok (splitStrat s f d) ↔
      ∀ ℓ ∈ labs d, 2 ≤ cnt d ℓ) := by
  unfold splitChecked
  by_cases h : ∀ ℓ ∈ labs d, 2 ≤ cnt d ℓ
  · have hb : ((labs d).all (fun ℓ => decide (2 ≤ cnt d ℓ))) = true := by
      rw [List.all_eq_true]
      intro ℓ hℓ
      exact decide_eq_true_eq.mpr (h ℓ hℓ)
    rw [if_pos hb]
    constructor
    · constructor
      · intro hcontr
        cases hcontr
      · rintro ⟨ℓ, hℓ, hlt⟩
        exact absurd (h ℓ hℓ) (by omega)
    · exact ⟨fun _ => h, fun _ => rfl⟩
  · push_neg at h
    obtain ⟨ℓ, hℓ, hlt⟩ := h
    have hb : ((labs d).all (fun ℓ => decide (2 ≤ cnt d ℓ))) = false := by
      rw [List.all_eq_false]
      exact ⟨ℓ, hℓ, by simpa using hlt⟩
    rw [hb]
    simp only [Bool.false_eq_true, if_false]
    constructor
    · constructor
      · intro _
        exact ⟨ℓ, hℓ, by omega⟩
      · intro _
        simp
    · constructor
      · intro hcontr
        simp at hcontr
      · intro hall
        exact absurd (hall ℓ hℓ) (by omega)

end GasClassifier
